import Mathlib

/-!
# A verification development for the org-roam-web static site generator

Shallow embedding of the core of org-roam-web (packages `internal/graph`,
`internal/render`, `internal/config`, `internal/search`) together with
theorems checking its natural-language specification against the code.

Go maps are modelled as functions (`String → Option _`, `String → Nat`,
`String → Bool`); Go slices as `List`; appending loops as `foldl` with
list append.  Where the Go code iterates over a map in unspecified order,
the enumeration order is taken as an explicit parameter.  The unbounded
BFS worklist loop of `LocalGraph` is given explicit fuel together with a
proof that the fuel suffices for the queue to drain completely.
-/

namespace OrgRoamWeb

/-- A note record as loaded from the org-roam database (`db.Node`):
stable unique ID, source file path, display title. -/
structure Node where
  id : String
  file : String
  title : String
deriving DecidableEq

/-- A directed identifier link between two notes (`db.Link`). -/
structure Link where
  source : String
  target : String
deriving DecidableEq

/-- A node of an emitted graph artifact (`graph.GraphNode`). -/
structure GraphNode where
  id : String
  title : String
  tags : List String
  linkCount : Nat
deriving DecidableEq

/-- An edge of an emitted graph artifact (`graph.GraphLink`). -/
structure GraphLink where
  source : String
  target : String
deriving DecidableEq

/-- An emitted graph artifact (`graph.Graph`). -/
structure Graph where
  nodes : List GraphNode
  links : List GraphLink
deriving DecidableEq

/-- Pointwise increment of a `String`-indexed counter
(the Go `linkCount[x]++` map update). -/
def bump (f : String → Nat) (x : String) : String → Nat :=
  fun y => if y == x then f y + 1 else f y

/-- Membership map over the node list (`graph.BuildGraph`, the `nodeSet`
map built from the published nodes). -/
def nodeSetOf (nodes : List Node) : String → Bool :=
  fun id => nodes.any (fun n => n.id == id)

/-- The link-counting loop shared by `BuildGraph` and `LocalGraph`:
for every link whose two endpoints satisfy `ns`, increment the counter of
the source and of the target (a self-loop hence counts twice). -/
def linkCountOf (ns : String → Bool) (links : List Link) : String → Nat :=
  links.foldl
    (fun f l => if ns l.source && ns l.target then bump (bump f l.source) l.target else f)
    (fun _ => 0)

/-- `graph.BuildGraph`: the global graph projection.  Every node of the
input list becomes a `GraphNode` (tags defaulted to `[]`); an edge is
emitted for each link whose both endpoints are in the node set. -/
def buildGraph (nodes : List Node) (links : List Link)
    (nodeTags : String → Option (List String)) : Graph :=
  let ns := nodeSetOf nodes
  let lc := linkCountOf ns links
  { nodes := nodes.map (fun n =>
      { id := n.id, title := n.title, tags := (nodeTags n.id).getD [], linkCount := lc n.id }),
    links := (links.filter (fun l => ns l.source && ns l.target)).map
      (fun l => { source := l.source, target := l.target }) }

/-- A search index entry (`search.SearchEntry`). -/
structure SearchEntry where
  id : String
  title : String
  tags : List String
deriving DecidableEq

/-- The search index (`search.SearchIndex`). -/
structure SearchIndex where
  entries : List SearchEntry
deriving DecidableEq

/-- `search.BuildIndex`: one entry per node, tags defaulted to `[]`. -/
def buildIndex (nodes : List Node) (nodeTags : String → Option (List String)) : SearchIndex :=
  { entries := nodes.map (fun n =>
      { id := n.id, title := n.title, tags := (nodeTags n.id).getD [] }) }

/-! ## Corpus filtering (`render.filterNodes`) -/

/-- Go `filepath.Base`: the last element of the path, with trailing
slashes removed; `"."` for the empty path, `"/"` for an all-slash path. -/
def baseName (path : String) : String :=
  if path = "" then "."
  else
    let cs := (path.toList.reverse.dropWhile (fun c => c = '/')).reverse
    if cs = [] then "/"
    else String.mk (cs.reverse.takeWhile (fun c => c ≠ '/')).reverse

/-- `render.filterNodes`: drop a node if its ID is excluded, or one of
its tags is excluded, or its file's base name matches one of the excluded
glob patterns.  `globMatch` stands for Go's `filepath.Match` (standard
library, its error return discarded by the caller). -/
def filterNodes (excludeTags excludeIDs excludeFiles : List String)
    (globMatch : String → String → Bool)
    (nodes : List Node) (nodeTags : String → Option (List String)) : List Node :=
  nodes.foldl
    (fun acc n =>
      if excludeIDs.contains n.id then acc
      else if ((nodeTags n.id).getD []).any (fun t => excludeTags.contains t) then acc
      else if excludeFiles.any (fun pat => globMatch pat (baseName n.file)) then acc
      else acc ++ [n])
    []

/-- The exclusion condition of the specification: a node is excluded iff
its ID is excluded, or its tag list meets the excluded-tag set, or its
source file's base name matches an excluded glob pattern. -/
def excludedNode (excludeTags excludeIDs excludeFiles : List String)
    (globMatch : String → String → Bool)
    (nodeTags : String → Option (List String)) (n : Node) : Bool :=
  excludeIDs.contains n.id
    || ((nodeTags n.id).getD []).any (fun t => excludeTags.contains t)
    || excludeFiles.any (fun pat => globMatch pat (baseName n.file))

/-! ## Relationship index (`render.loadData` / `render.generateNote`) -/

/-- A resolved link entry of a note page (`render.LinkData`). -/
structure LinkData where
  id : String
  title : String
deriving DecidableEq

/-- The visible-node title map `r.nodeMap` built from the published node
list (`ID -> Title`, later entries overwriting earlier ones). -/
def nodeMapTitles (nodes : List Node) : String → Option String :=
  nodes.foldl (fun f n => fun i => if i == n.id then some n.title else f i) (fun _ => none)

/-- The backlink multimap `r.backlinks` built from the complete link set:
`target ->` sources in link order. -/
def backlinksMap (links : List Link) : String → List String :=
  links.foldl (fun f l => fun t => if t == l.target then f t ++ [l.source] else f t)
    (fun _ => [])

/-- The resolution loops of `render.generateNote`: keep each referenced ID
that `resolve` knows, pair it with its title, silently drop the rest. -/
def noteLinks (resolve : String → Option String) (ids : List String) : List LinkData :=
  ids.foldl
    (fun acc i =>
      match resolve i with
      | some t => acc ++ [{ id := i, title := t }]
      | none => acc)
    []

/-! ## Configuration (`config.Load` / `config.DefaultConfig`) -/

structure SiteConfig where
  title : String
  baseURL : String
deriving DecidableEq

structure PathsConfig where
  roamDir : String
  dbPath : String
  outputDir : String
deriving DecidableEq

structure ExcludeConfig where
  tags : List String
  files : List String
  ids : List String
deriving DecidableEq

/-- Display settings.  The Go fields are `int`; the claims only concern
non-negative values, modelled as `Nat`. -/
structure DisplayConfig where
  recentCount : Nat
  localGraphDepth : Nat
deriving DecidableEq

structure Config where
  site : SiteConfig
  paths : PathsConfig
  exclude : ExcludeConfig
  display : DisplayConfig
deriving DecidableEq

/-- `config.DefaultConfig`. -/
def defaultConfig : Config :=
  { site := { title := "My Notes", baseURL := "" },
    paths := { roamDir := ".", dbPath := "./roam.db", outputDir := "./dist" },
    exclude := { tags := ["private", "draft"], files := [], ids := [] },
    display := { recentCount := 20, localGraphDepth := 2 } }

/-- Outcome of `os.ReadFile` on the configuration path. -/
inductive ReadResult where
  | notExist
  | readError
  | ok (data : String)

/-- `config.expandPath`: expand a leading `~` using the home directory;
`join` stands for Go's `filepath.Join` (standard library). -/
def expandPath (home : Option String) (join : String → String → String)
    (path : String) : String :=
  if path.length > 0 && path.front == '~' then
    match home with
    | none => path
    | some h => join h (path.drop 1)
  else path

/-- `config.Load`: defaults for a missing file, an error for any other
read failure or malformed YAML (`yamlParse` stands for
`yaml.Unmarshal` merging into the given configuration), path expansion on
success.  `none` models the error return. -/
def load (home : Option String) (join : String → String → String)
    (yamlParse : String → Config → Option Config) (read : ReadResult) : Option Config :=
  match read with
  | .notExist => some defaultConfig
  | .readError => none
  | .ok data =>
    match yamlParse data defaultConfig with
    | none => none
    | some cfg => some { cfg with paths :=
        { roamDir := expandPath home join cfg.paths.roamDir,
          dbPath := expandPath home join cfg.paths.dbPath,
          outputDir := expandPath home join cfg.paths.outputDir } }

/-! ## Local (ego) subgraph (`graph.LocalGraph`) -/

/-- The undirected adjacency view built by `LocalGraph` from the complete
link set: every link appends its target to the source's neighbor list and
its source to the target's neighbor list. -/
def adjacency (links : List Link) (x : String) : List String :=
  links.foldl
    (fun acc l =>
      let acc := if l.source == x then acc ++ [l.target] else acc
      if l.target == x then acc ++ [l.source] else acc)
    []

/-- A BFS worklist entry: node ID with its hop distance. -/
structure QEntry where
  id : String
  depth : Nat
deriving DecidableEq

/-- The inner loop of the BFS of `LocalGraph`: scan the neighbors of the
current node, enqueueing and marking each not-yet-visited one at depth
`d1`. -/
def bfsExpand (state : List QEntry × List String) (d1 : Nat) (nbrs : List String) :
    List QEntry × List String :=
  nbrs.foldl
    (fun acc nb =>
      if acc.2.contains nb then acc
      else (acc.1 ++ [{ id := nb, depth := d1 }], acc.2 ++ [nb]))
    state

/-- The BFS worklist loop of `LocalGraph`.  The Go loop runs until the
queue drains; here it is driven by explicit fuel, one unit per dequeued
entry, and `bfsFuel` below is proved to be enough for the queue to drain
on every input. -/
def bfsAux (links : List Link) (maxDepth : Nat) :
    Nat → List QEntry → List String → List String
  | 0, _, visited => visited
  | _ + 1, [], visited => visited
  | fuel + 1, curr :: rest, visited =>
    if maxDepth ≤ curr.depth then
      bfsAux links maxDepth fuel rest visited
    else
      let p := bfsExpand (rest, visited) (curr.depth + 1) (adjacency links curr.id)
      bfsAux links maxDepth fuel p.1 p.2

/-- Fuel bound for the BFS loop: every dequeue consumes one unit, and the
number of enqueues is bounded by one plus the number of distinct link
endpoints, itself at most `2 * links.length`. -/
def bfsFuel (links : List Link) : Nat :=
  4 * links.length + 1

/-- The visited set of the BFS of `LocalGraph` around `nodeID` at the
given depth, as the list of node IDs in visit order. -/
def localVisited (nodeID : String) (depth : Nat) (links : List Link) : List String :=
  bfsAux links depth (bfsFuel links) [{ id := nodeID, depth := 0 }] [nodeID]

/-- The node-ID-to-record map `nodeMap` of `LocalGraph` (later entries
overwriting earlier ones). -/
def nodeMapOf (nodes : List Node) : String → Option Node :=
  nodes.foldl (fun f n => fun i => if i == n.id then some n else f i) (fun _ => none)

/-- `graph.LocalGraph`: BFS-visit the undirected neighborhood of
`nodeID` up to `depth` hops over the complete link set, then publish a
`GraphNode` for each visited ID present in the node table and an edge for
each link with both endpoints visited.  `linkCount` counts only the edges
with both endpoints visited. -/
def localGraph (nodeID : String) (depth : Nat) (nodes : List Node) (links : List Link)
    (nodeTags : String → Option (List String)) : Graph :=
  let visited := localVisited nodeID depth links
  let vis := fun x => visited.contains x
  let lc := linkCountOf vis links
  { nodes := visited.filterMap (fun i =>
      match nodeMapOf nodes i with
      | some n => some { id := n.id, title := n.title,
                         tags := (nodeTags i).getD [], linkCount := lc i }
      | none => none),
    links := (links.filter (fun l => vis l.source && vis l.target)).map
      (fun l => { source := l.source, target := l.target }) }

/-- One undirected hop as described by the specification: some link joins
`x` and `y` in either direction. -/
def stepB (links : List Link) (x y : String) : Bool :=
  links.any (fun l => (l.source == x && l.target == y) || (l.target == x && l.source == y))

/-- `reachInB links n x y`: `y` lies at undirected hop-distance at most
`n` from `x` over the complete link set — the specification's notion of
the depth-`n` ego neighborhood. -/
def reachInB (links : List Link) : Nat → String → String → Bool
  | 0, x, y => x == y
  | n + 1, x, y =>
    x == y || links.any (fun l =>
      (l.source == x && reachInB links n l.target y)
        || (l.target == x && reachInB links n l.source y))

/-! ## Home page (`render.generateHome` / `render.extractDateFromFilename`) -/

/-- Numeric value of a list of decimal digit characters. -/
def digitsToNat (cs : List Char) : Nat :=
  cs.foldl (fun a c => a * 10 + (c.toNat - 48)) 0

/-- Gregorian leap year, as used by Go's `time` package. -/
def leapYear (y : Nat) : Bool :=
  y % 4 == 0 && (y % 100 != 0 || y % 400 == 0)

def daysInMonth (y m : Nat) : Nat :=
  if m == 2 then (if leapYear y then 29 else 28)
  else if m == 4 || m == 6 || m == 9 || m == 11 then 30
  else 31

/-- Encoding of a date-time as a `Nat` whose numeric order is the
chronological order (`time.Time.After` becomes `>`). -/
def encodeDate (y mo d h mi s : Nat) : Nat :=
  ((((y * 100 + mo) * 100 + d) * 100 + h) * 100 + mi) * 100 + s

/-- The zero `time.Time` (January 1 of year 1). -/
def zeroDate : Nat := encodeDate 1 1 1 0 0 0

/-- `time.Parse "20060102150405"` on a 14-character candidate: all
digits, with month, day (month- and leap-aware), hour, minute and second
in range. -/
def parse14 (cs : List Char) : Option Nat :=
  if cs.length == 14 && cs.all (fun c => c.isDigit) then
    let y := digitsToNat (cs.take 4)
    let mo := digitsToNat ((cs.drop 4).take 2)
    let d := digitsToNat ((cs.drop 6).take 2)
    let h := digitsToNat ((cs.drop 8).take 2)
    let mi := digitsToNat ((cs.drop 10).take 2)
    let s := digitsToNat ((cs.drop 12).take 2)
    if 1 ≤ mo && mo ≤ 12 && 1 ≤ d && d ≤ daysInMonth y mo && h ≤ 23 && mi ≤ 59 && s ≤ 59 then
      some (encodeDate y mo d h mi s)
    else none
  else none

/-- The `(\d\d\d\d)\.org$` fallback of `extractDateFromFilename`: a
4-digit year right before the `.org` extension, approximated to June 1 of
that year. -/
def yearAtEnd (cs : List Char) : Option Nat :=
  if 8 ≤ cs.length
      && (cs.drop (cs.length - 4) == ".org".toList)
      && ((cs.drop (cs.length - 8)).take 4).all (fun c => c.isDigit) then
    some (encodeDate (digitsToNat ((cs.drop (cs.length - 8)).take 4)) 6 1 0 0 0)
  else none

/-- `render.extractDateFromFilename`: 14-digit timestamp prefix of the
base name, else trailing 4-digit year, else the file's modification time
(`modTime` stands for `os.Stat`, `none` being a stat failure), else the
zero time. -/
def extractDateFromFilename (modTime : String → Option Nat) (filename : String) : Nat :=
  let cs := (baseName filename).toList
  let fallback :=
    match yearAtEnd cs with
    | some t => t
    | none => match modTime filename with
      | some t => t
      | none => zeroDate
  if 14 ≤ cs.length then
    match parse14 (cs.take 14) with
    | some t => t
    | none => fallback
  else fallback

/-- Insertion of one element into a sorted prefix, placing it before the
first strictly "less" element, hence after all elements it ties with. -/
def insertGo {α : Type} (less : α → α → Bool) (x : α) : List α → List α
  | [] => [x]
  | y :: ys => if less x y then x :: y :: ys else y :: insertGo less x ys

/-- Modelled from the spec: the sorting step of `generateHome` and
`generateGraph` is Go's `sort.Slice` (standard library, not part of this
repository's sources); the specification describes it as a stable sort by
the given comparator, realized here as insertion sort — which is also the
algorithm Go's `sort.Slice` itself runs on slices of fewer than 13
elements. -/
def sortSliceGo {α : Type} (less : α → α → Bool) (l : List α) : List α :=
  l.foldl (fun acc x => insertGo less x acc) []

/-- A home/tag page note preview (`render.NotePreview`). -/
structure NotePreview where
  id : String
  title : String
  tags : List String
  modTime : Nat
deriving DecidableEq

/-- The comparator of `generateHome`: newest derived date first
(`dateI.After dateJ`). -/
def lessByDate (modTime : String → Option Nat) (a b : Node) : Bool :=
  extractDateFromFilename modTime b.file < extractDateFromFilename modTime a.file

/-- `render.generateHome`'s view-model computation: sort the published
nodes by derived date descending, clamp `recentCount` to the corpus size,
and keep that many leading previews. -/
def generateHomeRecent (modTime : String → Option Nat) (recentCount : Nat)
    (nodes : List Node) (nodeTags : String → Option (List String)) : List NotePreview :=
  let sorted := sortSliceGo (lessByDate modTime) nodes
  let count := if sorted.length < recentCount then sorted.length else recentCount
  (sorted.take count).map (fun n =>
    { id := n.id, title := n.title, tags := (nodeTags n.id).getD [],
      modTime := extractDateFromFilename modTime n.file })

/-! ## Graph-explorer tag lists (`render.generateGraph`) -/

/-- A tag with its occurrence count (the anonymous `tagCount` struct of
`generateGraph`). -/
structure TagCount where
  tag : String
  count : Nat
deriving DecidableEq

/-- The `tagCounts` map of `generateGraph`: occurrences of each tag over
the node-tags association, whose map iteration order is immaterial to the
counts and is taken here as the list order of `tagLists`. -/
def tagCountsOf (tagLists : List (List String)) : String → Nat :=
  tagLists.foldl (fun f tags => tags.foldl (fun g t => bump g t) f) (fun _ => 0)

/-- The "top tags" list of `generateGraph`: the distinct tags — in the
unspecified order `tagOrder` in which Go happens to iterate the
`tagCounts` map — sorted by count descending and capped at 10. -/
def topTagsOf (tagOrder : List String) (counts : String → Nat) : List String :=
  let tagList := tagOrder.map (fun t => TagCount.mk t (counts t))
  let sorted := sortSliceGo (fun a b => b.count < a.count) tagList
  (sorted.take 10).map (fun tc => tc.tag)

/-- The "all tags" list of `generateGraph`: the distinct tags sorted
lexicographically (`sort.Strings`). -/
def allTagsOf (tagOrder : List String) : List String :=
  sortSliceGo (fun a b : String => decide (a < b)) tagOrder

/-! ## Proof-side instrumentation of the BFS

`bfsAuxD` is the BFS worklist loop again, with the visited set enriched
by the hop depth at which each node was first visited; projecting the
depths away recovers `bfsAux` exactly.  `allEndpoints` and `unvisited`
support the proof that the fuel suffices. -/

/-- All link endpoints, in order. -/
def allEndpoints (links : List Link) : List String :=
  links.foldr (fun l acc => l.source :: l.target :: acc) []

/-- Depth-instrumented version of `bfsExpand`. -/
def bfsExpandD (state : List QEntry × List (String × Nat)) (d1 : Nat) (nbrs : List String) :
    List QEntry × List (String × Nat) :=
  nbrs.foldl
    (fun acc nb =>
      if (acc.2.map Prod.fst).contains nb then acc
      else (acc.1 ++ [{ id := nb, depth := d1 }], acc.2 ++ [(nb, d1)]))
    state

/-- Depth-instrumented version of `bfsAux`, also returning the final
queue. -/
def bfsAuxD (links : List Link) (maxDepth : Nat) :
    Nat → List QEntry → List (String × Nat) → List QEntry × List (String × Nat)
  | 0, q, v => (q, v)
  | _ + 1, [], v => ([], v)
  | fuel + 1, curr :: rest, v =>
    if maxDepth ≤ curr.depth then
      bfsAuxD links maxDepth fuel rest v
    else
      let p := bfsExpandD (rest, v) (curr.depth + 1) (adjacency links curr.id)
      bfsAuxD links maxDepth fuel p.1 p.2

/-- The number of link endpoints not yet visited; the BFS termination
measure is the queue length plus twice this number. -/
def unvisited (links : List Link) (v : List (String × Nat)) : Nat :=
  ((allEndpoints links).toFinset \ (v.map Prod.fst).toFinset).card

/-- Sortedness for the comparator `less`: no later element is strictly
less than an earlier one. -/
def SortedB {α : Type} (less : α → α → Bool) (l : List α) : Prop :=
  l.Pairwise (fun a b => less b a = false)

/-- The BFS state invariant over the instrumented state: every queue
entry is visited at its own depth; visited depths are bounded by the cap
and by every queue depth plus one; the queue depths are non-decreasing
and span at most two levels; visited IDs are unique, reachable within
their recorded depth, and — unless still enqueued or at the cap — have
all neighbors visited at most one level deeper. -/
structure BfsInv (links : List Link) (D : Nat) (focal : String)
    (q : List QEntry) (v : List (String × Nat)) : Prop where
  qmem : ∀ e ∈ q, (e.id, e.depth) ∈ v
  vdepth : ∀ p ∈ v, p.2 ≤ D
  vnodup : (v.map Prod.fst).Nodup
  qsorted : q.Pairwise (fun a b => a.depth ≤ b.depth)
  qclose : ∀ a ∈ q, ∀ b ∈ q, a.depth ≤ b.depth + 1
  vqle : ∀ p ∈ v, ∀ e ∈ q, p.2 ≤ e.depth + 1
  sound : ∀ p ∈ v, reachInB links p.2 focal p.1 = true
  closure : ∀ p ∈ v, D ≤ p.2 ∨ (QEntry.mk p.1 p.2) ∈ q
      ∨ ∀ w ∈ adjacency links p.1, ∃ dw, dw ≤ p.2 + 1 ∧ (w, dw) ∈ v

/-! ## Basic lemmas about the corpus, index and counting loops -/

theorem bump_apply (f : String → Nat) (x y : String) :
    bump f x y = if y = x then f y + 1 else f y := by
  simp [bump]

theorem bump2_apply (f : String → Nat) (s t x : String) :
    bump (bump f s) t x = f x + ((if s = x then 1 else 0) + (if t = x then 1 else 0)) := by
  have hb : ∀ (g : String → Nat) (a : String), bump g a x = g x + (if a = x then 1 else 0) := by
    intro g a
    simp only [bump, beq_iff_eq]
    by_cases h : x = a
    · rw [if_pos h, if_pos h.symm]
    · rw [if_neg h, if_neg (fun e => h e.symm), Nat.add_zero]
  rw [hb, hb, Nat.add_assoc]

theorem linkCount_foldl (ns : String → Bool) (links : List Link) (f : String → Nat)
    (x : String) :
    (links.foldl
        (fun f l => if ns l.source && ns l.target then bump (bump f l.source) l.target else f)
        f) x
      = f x + (links.filter (fun l => ns l.source && ns l.target)).countP
            (fun l => l.source == x)
          + (links.filter (fun l => ns l.source && ns l.target)).countP
            (fun l => l.target == x) := by
  induction links generalizing f with
  | nil => simp
  | cons l ls ih =>
    simp only [List.foldl_cons, List.filter_cons]
    by_cases h : ns l.source && ns l.target
    · rw [if_pos h, ih, if_pos h]
      rw [bump2_apply]
      simp only [List.countP_cons, beq_iff_eq]
      by_cases hs : l.source = x <;> by_cases ht : l.target = x <;>
        simp [hs, ht] <;> omega
    · rw [if_neg h, ih, if_neg h]

theorem linkCountOf_eq (ns : String → Bool) (links : List Link) (x : String) :
    linkCountOf ns links x
      = (links.filter (fun l => ns l.source && ns l.target)).countP (fun l => l.source == x)
        + (links.filter (fun l => ns l.source && ns l.target)).countP
            (fun l => l.target == x) := by
  unfold linkCountOf
  rw [linkCount_foldl]
  omega

theorem foldl_fun_congr {α β : Type} (f g : β → α → β) (h : ∀ b a, f b a = g b a)
    (l : List α) (b : β) : l.foldl f b = l.foldl g b := by
  induction l generalizing b with
  | nil => rfl
  | cons x xs ih => simp only [List.foldl_cons, h, ih]

theorem foldl_if_append (p : α → Bool) (l : List α) (acc : List α) :
    (l.foldl (fun acc x => if p x then acc ++ [x] else acc) acc) = acc ++ l.filter p := by
  induction l generalizing acc with
  | nil => simp
  | cons x xs ih =>
    simp only [List.foldl_cons, List.filter_cons]
    by_cases h : p x
    · rw [if_pos h, ih, if_pos h]; simp
    · rw [if_neg h, ih, if_neg h]

theorem filterNodes_eq (eT eI eF : List String) (gm : String → String → Bool)
    (nodes : List Node) (nodeTags : String → Option (List String)) :
    filterNodes eT eI eF gm nodes nodeTags
      = nodes.filter (fun n => !excludedNode eT eI eF gm nodeTags n) := by
  have hstep : ∀ (acc : List Node) (n : Node),
      (if eI.contains n.id then acc
       else if ((nodeTags n.id).getD []).any (fun t => eT.contains t) then acc
       else if eF.any (fun pat => gm pat (baseName n.file)) then acc
       else acc ++ [n])
        = if !excludedNode eT eI eF gm nodeTags n then acc ++ [n] else acc := by
    intro acc n
    unfold excludedNode
    cases h1 : eI.contains n.id <;>
      cases h2 : ((nodeTags n.id).getD []).any (fun t => eT.contains t) <;>
      cases h3 : eF.any (fun pat => gm pat (baseName n.file)) <;> simp
  unfold filterNodes
  rw [foldl_fun_congr _
    (fun acc n => if !excludedNode eT eI eF gm nodeTags n then acc ++ [n] else acc)
    hstep]
  exact foldl_if_append _ nodes []

theorem nodeMapTitles_none_iff (nodes : List Node) (i : String) :
    nodeMapTitles nodes i = none ↔ i ∉ nodes.map Node.id := by
  have key : ∀ (f : String → Option String),
      (nodes.foldl (fun f n => fun j => if j == n.id then some n.title else f j) f) i = none
        ↔ (f i = none ∧ ∀ n ∈ nodes, i ≠ n.id) := by
    induction nodes with
    | nil => simp
    | cons n ns ih =>
      intro f
      simp only [List.foldl_cons, ih, List.mem_cons]
      constructor
      · rintro ⟨hf, hall⟩
        by_cases h : i = n.id
        · simp [h] at hf
        · exact ⟨by simpa [h] using hf, fun m hm => by
            rcases hm with rfl | hm
            · exact h
            · exact hall m hm⟩
      · rintro ⟨hf, hall⟩
        have h : i ≠ n.id := hall n (Or.inl rfl)
        exact ⟨by simpa [h] using hf, fun m hm => hall m (Or.inr hm)⟩
  rw [nodeMapTitles, key]
  simp only [true_and, List.mem_map, not_exists, not_and]
  constructor
  · intro h n hn he
    exact h n hn he.symm
  · intro h n hn he
    exact h n hn he.symm

theorem noteLinks_foldl (resolve : String → Option String) (ids : List String)
    (acc : List LinkData) :
    (ids.foldl
        (fun acc i =>
          match resolve i with
          | some t => acc ++ [{ id := i, title := t }]
          | none => acc)
        acc)
      = acc ++ ids.filterMap (fun i => (resolve i).map (fun t => LinkData.mk i t)) := by
  induction ids generalizing acc with
  | nil => simp
  | cons i is ih =>
    simp only [List.foldl_cons, List.filterMap_cons]
    cases h : resolve i with
    | none => simp [h, ih]
    | some t => simp [h, ih]

theorem noteLinks_eq (resolve : String → Option String) (ids : List String) :
    noteLinks resolve ids
      = ids.filterMap (fun i => (resolve i).map (fun t => LinkData.mk i t)) := by
  simpa using noteLinks_foldl resolve ids []

/-! ## Claim theorems: filtering, relationship index, artifacts, config -/

theorem excludedNode_iff (eT eI eF : List String) (gm : String → String → Bool)
    (nodeTags : String → Option (List String)) (n : Node) :
    excludedNode eT eI eF gm nodeTags n = true
      ↔ (n.id ∈ eI
          ∨ (∃ t ∈ (nodeTags n.id).getD [], t ∈ eT)
          ∨ (∃ p ∈ eF, gm p (baseName n.file) = true)) := by
  simp [excludedNode, List.any_eq_true, List.elem_iff, or_assoc]

/-- C5: the published node list is exactly the input list with the nodes
removed whose ID is excluded, or whose tag list meets the excluded-tag
set, or whose file's base name matches an excluded glob pattern (a node
is excluded iff at least one condition holds), the survivors keeping
their original order. -/
theorem c5_filter_exactness (eT eI eF : List String) (gm : String → String → Bool)
    (nodes : List Node) (nodeTags : String → Option (List String)) :
    filterNodes eT eI eF gm nodes nodeTags
      = nodes.filter (fun n => !excludedNode eT eI eF gm nodeTags n)
      ∧ (∀ n : Node,
          excludedNode eT eI eF gm nodeTags n = true
            ↔ (n.id ∈ eI
                ∨ (∃ t ∈ (nodeTags n.id).getD [], t ∈ eT)
                ∨ (∃ p ∈ eF, gm p (baseName n.file) = true))) :=
  ⟨filterNodes_eq eT eI eF gm nodes nodeTags, fun n => excludedNode_iff eT eI eF gm nodeTags n⟩

/-- C6: forward links and backlinks of a note page are resolved against
the visible-node title map; IDs the map knows are kept, paired with their
titles and in order, and IDs absent from the map — precisely the IDs of
no published node — are dropped; the computation is a total function with
no error outcome. -/
theorem c6_silent_link_resolution (nodes : List Node) (links : List Link)
    (parsedLinkIDs : List String) (noteID : String) :
    noteLinks (nodeMapTitles nodes) parsedLinkIDs
        = parsedLinkIDs.filterMap
            (fun i => (nodeMapTitles nodes i).map (fun t => LinkData.mk i t))
      ∧ noteLinks (nodeMapTitles nodes) (backlinksMap links noteID)
        = (backlinksMap links noteID).filterMap
            (fun i => (nodeMapTitles nodes i).map (fun t => LinkData.mk i t))
      ∧ (∀ i, nodeMapTitles nodes i = none ↔ i ∉ nodes.map Node.id) :=
  ⟨noteLinks_eq _ _, noteLinks_eq _ _, fun i => nodeMapTitles_none_iff nodes i⟩

/-- C9: the node-ID list of the emitted graph artifact and the node-ID
list of the emitted search index both equal the published corpus's ID
list, for every corpus, link set and tag map. -/
theorem c9_artifact_id_sets (nodes : List Node) (links : List Link)
    (nodeTags : String → Option (List String)) :
    (buildGraph nodes links nodeTags).nodes.map GraphNode.id = nodes.map Node.id
      ∧ (buildIndex nodes nodeTags).entries.map SearchEntry.id = nodes.map Node.id := by
  constructor <;> simp [buildGraph, buildIndex, List.map_map, Function.comp]

/-- C4: in the global graph projection every node's `linkCount` is the
number of qualifying links (both endpoints in the published node set) in
which it appears as source plus the number in which it appears as target;
a qualifying self-loop hence contributes 2, and the raw link count never
enters. -/
theorem c4_global_link_count (nodes : List Node) (links : List Link)
    (nodeTags : String → Option (List String)) (gn : GraphNode)
    (h : gn ∈ (buildGraph nodes links nodeTags).nodes) :
    gn.linkCount
      = (links.filter
            (fun l => nodeSetOf nodes l.source && nodeSetOf nodes l.target)).countP
          (fun l => l.source == gn.id)
        + (links.filter
            (fun l => nodeSetOf nodes l.source && nodeSetOf nodes l.target)).countP
          (fun l => l.target == gn.id) := by
  simp only [buildGraph, List.mem_map] at h
  obtain ⟨n, _, rfl⟩ := h
  simpa using linkCountOf_eq (nodeSetOf nodes) links n.id

/-- Witness for C4: a published note with a single self-referencing link
has `linkCount` 2, matching the two qualifying-appearance counts. -/
theorem c4_global_link_count_witness :
    (⟨"A", "A", [], 2⟩ : GraphNode)
        ∈ (buildGraph [⟨"A", "a.org", "A"⟩] [⟨"A", "A"⟩]
            (fun _ => (none : Option (List String)))).nodes
      ∧ (⟨"A", "A", [], 2⟩ : GraphNode).linkCount
        = (([⟨"A", "A"⟩] : List Link).filter
              (fun l =>
                nodeSetOf [⟨"A", "a.org", "A"⟩] l.source
                  && nodeSetOf [⟨"A", "a.org", "A"⟩] l.target)).countP
            (fun l => l.source == (⟨"A", "A", [], 2⟩ : GraphNode).id)
          + (([⟨"A", "A"⟩] : List Link).filter
              (fun l =>
                nodeSetOf [⟨"A", "a.org", "A"⟩] l.source
                  && nodeSetOf [⟨"A", "a.org", "A"⟩] l.target)).countP
            (fun l => l.target == (⟨"A", "A", [], 2⟩ : GraphNode).id) :=
  ⟨by decide,
    c4_global_link_count [⟨"A", "a.org", "A"⟩] [⟨"A", "A"⟩]
      (fun _ => (none : Option (List String))) ⟨"A", "A", [], 2⟩ (by decide)⟩

/-! ## Sorting lemmas for the home page and the tag lists -/

theorem insertGo_perm {α : Type} (less : α → α → Bool) (x : α) (l : List α) :
    (insertGo less x l).Perm (x :: l) := by
  induction l with
  | nil => exact List.Perm.refl _
  | cons y ys ih =>
    simp only [insertGo]
    by_cases h : less x y
    · rw [if_pos h]
    · rw [if_neg h]
      exact (ih.cons y).trans (List.Perm.swap x y ys)

theorem foldl_insertGo_perm {α : Type} (less : α → α → Bool) (l acc : List α) :
    (l.foldl (fun acc x => insertGo less x acc) acc).Perm (acc ++ l) := by
  induction l generalizing acc with
  | nil => simp
  | cons x xs ih =>
    simp only [List.foldl_cons]
    refine (ih (insertGo less x acc)).trans ?_
    refine ((insertGo_perm less x acc).append_right xs).trans ?_
    exact List.perm_middle.symm

theorem sortSliceGo_perm {α : Type} (less : α → α → Bool) (l : List α) :
    (sortSliceGo less l).Perm l := by
  simpa [sortSliceGo] using foldl_insertGo_perm less l []

theorem insertGo_sortedB {α : Type} (less : α → α → Bool)
    (htrans : ∀ a b c, less a b = true → less b c = true → less a c = true)
    (hasymm : ∀ a b, less a b = true → less b a = false)
    (x : α) {l : List α} (hs : SortedB less l) : SortedB less (insertGo less x l) := by
  induction l with
  | nil => simp [insertGo, SortedB]
  | cons y ys ih =>
    rcases List.pairwise_cons.mp hs with ⟨hy, hys⟩
    simp only [insertGo]
    by_cases h : less x y
    · rw [if_pos h]
      refine List.Pairwise.cons ?_ hs
      intro z hz
      rcases List.mem_cons.mp hz with rfl | hz
      · exact hasymm x z h
      · by_contra hzx
        rw [Bool.not_eq_false] at hzx
        have hzy := htrans z x y hzx h
        rw [hy z hz] at hzy
        exact Bool.false_ne_true hzy
    · rw [if_neg h]
      refine List.Pairwise.cons ?_ (ih hys)
      intro z hz
      have hz2 : z ∈ x :: ys := (insertGo_perm less x ys).subset hz
      rcases List.mem_cons.mp hz2 with rfl | hz2
      · exact Bool.eq_false_iff.mpr h
      · exact hy z hz2

theorem sortSliceGo_sortedB {α : Type} (less : α → α → Bool)
    (htrans : ∀ a b c, less a b = true → less b c = true → less a c = true)
    (hasymm : ∀ a b, less a b = true → less b a = false)
    (l : List α) : SortedB less (sortSliceGo less l) := by
  suffices h : ∀ (l acc : List α), SortedB less acc →
      SortedB less (l.foldl (fun acc x => insertGo less x acc) acc) by
    exact h l [] List.Pairwise.nil
  intro l
  induction l with
  | nil => intro acc hacc; exact hacc
  | cons x xs ih =>
    intro acc hacc
    exact ih _ (insertGo_sortedB less htrans hasymm x hacc)

theorem insertGo_filter_key {α : Type} (less : α → α → Bool) (key : α → Nat)
    (hkey : ∀ a b, less a b = true ↔ key b < key a) (d : Nat) (x : α) :
    ∀ {l : List α}, SortedB less l →
      (insertGo less x l).filter (fun y => key y == d)
        = if key x = d then l.filter (fun y => key y == d) ++ [x]
          else l.filter (fun y => key y == d) := by
  intro l
  induction l with
  | nil =>
    intro _
    by_cases hx : key x = d <;> simp [insertGo, hx]
  | cons y ys ih =>
    intro hs
    rcases List.pairwise_cons.mp hs with ⟨hy, hys⟩
    simp only [insertGo]
    by_cases h : less x y
    · rw [if_pos h]
      have hlt : key y < key x := (hkey x y).mp h
      by_cases hx : key x = d
      · rw [if_pos hx]
        have hnone : (y :: ys).filter (fun z => key z == d) = [] := by
          rw [List.filter_eq_nil_iff]
          intro z hz
          rcases List.mem_cons.mp hz with rfl | hz
          · intro he
            have hzd : key z = d := by simpa using he
            omega
          · have hzy : ¬ key y < key z := fun hk =>
              absurd ((hkey z y).mpr hk) (by simp [hy z hz])
            intro he
            have hzd : key z = d := by simpa using he
            omega
        rw [List.filter_cons_of_pos (by simpa using hx), hnone]
        rfl
      · rw [if_neg hx]
        rw [List.filter_cons_of_neg (by simpa using hx)]
    · rw [if_neg h]
      rw [List.filter_cons]
      by_cases hyd : key y = d
      · rw [if_pos (by simpa using hyd), ih hys, List.filter_cons_of_pos (by simpa using hyd)]
        by_cases hx : key x = d <;> simp [hx]
      · rw [if_neg (by simpa using hyd), ih hys, List.filter_cons_of_neg (by simpa using hyd)]

theorem sortSliceGo_filter_key {α : Type} (less : α → α → Bool) (key : α → Nat)
    (hkey : ∀ a b, less a b = true ↔ key b < key a) (d : Nat) (l : List α) :
    (sortSliceGo less l).filter (fun y => key y == d) = l.filter (fun y => key y == d) := by
  have htrans : ∀ a b c, less a b = true → less b c = true → less a c = true := by
    intro a b c h1 h2
    rw [hkey] at h1 h2 ⊢
    omega
  have hasymm : ∀ a b, less a b = true → less b a = false := by
    intro a b h1
    rw [hkey] at h1
    rw [Bool.eq_false_iff]
    intro h2
    rw [hkey] at h2
    omega
  suffices h : ∀ (l acc : List α), SortedB less acc →
      (l.foldl (fun acc x => insertGo less x acc) acc).filter (fun y => key y == d)
        = acc.filter (fun y => key y == d) ++ l.filter (fun y => key y == d) by
    simpa [sortSliceGo] using h l [] List.Pairwise.nil
  intro l
  induction l with
  | nil => intro acc _; simp
  | cons x xs ih =>
    intro acc hacc
    simp only [List.foldl_cons]
    rw [ih _ (insertGo_sortedB less htrans hasymm x hacc)]
    rw [insertGo_filter_key less key hkey d x hacc]
    rw [List.filter_cons]
    by_cases hx : key x = d
    · rw [if_pos hx, if_pos (by simpa using hx)]
      simp
    · rw [if_neg hx, if_neg (by simpa using hx)]

theorem lessByDate_key (modTime : String → Option Nat) (a b : Node) :
    lessByDate modTime a b = true
      ↔ extractDateFromFilename modTime b.file < extractDateFromFilename modTime a.file := by
  simp [lessByDate]

/-- C7: the home page lists the published notes sorted by derived
effective date descending with a stable sort (a permutation, dates
non-increasing, and per-date subsequences in corpus order), truncated to
`recent_count`; the 2024 filename sorts before the 2023 one, and a
`recent_count` at least the corpus size yields the full sorted corpus
with no error. -/
theorem c7_home_recent (modTime : String → Option Nat) (recentCount : Nat)
    (nodes : List Node) (nodeTags : String → Option (List String)) :
    (generateHomeRecent modTime recentCount nodes nodeTags).length
        = min recentCount nodes.length
      ∧ (sortSliceGo (lessByDate modTime) nodes).Perm nodes
      ∧ (sortSliceGo (lessByDate modTime) nodes).Pairwise
          (fun a b => extractDateFromFilename modTime b.file
              ≤ extractDateFromFilename modTime a.file)
      ∧ (∀ d, (sortSliceGo (lessByDate modTime) nodes).filter
            (fun n => extractDateFromFilename modTime n.file == d)
          = nodes.filter (fun n => extractDateFromFilename modTime n.file == d))
      ∧ (nodes.length ≤ recentCount →
          generateHomeRecent modTime recentCount nodes nodeTags
            = (sortSliceGo (lessByDate modTime) nodes).map (fun n =>
                { id := n.id, title := n.title, tags := (nodeTags n.id).getD [],
                  modTime := extractDateFromFilename modTime n.file }))
      ∧ generateHomeRecent (fun _ => none) 20
            [⟨"a", "20230101000000-a.org", "a"⟩, ⟨"b", "20240101000000-b.org", "b"⟩]
            (fun _ => none)
          = [⟨"b", "b", [], 20240101000000⟩, ⟨"a", "a", [], 20230101000000⟩] := by
  have hperm := sortSliceGo_perm (lessByDate modTime) nodes
  have hlen := hperm.length_eq
  refine ⟨?_, hperm, ?_, ?_, ?_, by decide⟩
  · simp only [generateHomeRecent, List.length_map, List.length_take, hlen]
    split <;> omega
  · have hs := sortSliceGo_sortedB (lessByDate modTime)
      (fun a b c h1 h2 => by
        rw [lessByDate_key] at h1 h2 ⊢; omega)
      (fun a b h1 => by
        rw [lessByDate_key] at h1
        rw [Bool.eq_false_iff]
        intro h2
        rw [lessByDate_key] at h2
        omega)
      nodes
    refine hs.imp ?_
    intro a b h
    by_contra hk
    rw [not_le] at hk
    exact absurd ((lessByDate_key modTime b a).mpr hk) (by simp [h])
  · intro d
    exact sortSliceGo_filter_key (lessByDate modTime)
      (fun n => extractDateFromFilename modTime n.file) (lessByDate_key modTime) d nodes
  · intro h
    have hc : (if (sortSliceGo (lessByDate modTime) nodes).length < recentCount
        then (sortSliceGo (lessByDate modTime) nodes).length else recentCount)
          = (sortSliceGo (lessByDate modTime) nodes).length := by
      split <;> omega
    simp only [generateHomeRecent, hc, List.take_length]

/-- Witness for C7: a two-note corpus with `recent_count` 20 emits the
full sorted corpus. -/
theorem c7_home_recent_witness :
    (([⟨"a", "20230101000000-a.org", "a"⟩, ⟨"b", "20240101000000-b.org", "b"⟩] :
        List Node).length ≤ 20)
      ∧ generateHomeRecent (fun _ => none) 20
          [⟨"a", "20230101000000-a.org", "a"⟩, ⟨"b", "20240101000000-b.org", "b"⟩]
          (fun _ => none)
        = (sortSliceGo (lessByDate (fun _ => none))
            [⟨"a", "20230101000000-a.org", "a"⟩, ⟨"b", "20240101000000-b.org", "b"⟩]).map
            (fun n => { id := n.id, title := n.title, tags := ((fun _ => none) n.id).getD [],
                        modTime := extractDateFromFilename (fun _ => none) n.file }) :=
  ⟨by decide,
    (c7_home_recent (fun _ => none) 20
      [⟨"a", "20230101000000-a.org", "a"⟩, ⟨"b", "20240101000000-b.org", "b"⟩]
      (fun _ => none)).2.2.2.2.1 (by decide)⟩

/-- Counterexample for C8: on a corpus where tags a and b both occur
once, two Go-map iteration orders of the tag-count table yield different
"top tags" lists, so the tie order is not determined by first observation
(nor by anything else about the corpus). -/
theorem c8_top_tags_counterexample :
    topTagsOf ["a", "b"] (tagCountsOf [["a"], ["b"]])
      ≠ topTagsOf ["b", "a"] (tagCountsOf [["a"], ["b"]]) := by
  decide

/-- C8 (amended): "top tags" is the distinct tag list, in the unspecified
map-iteration order, sorted by occurrence count descending and capped at
10 — ties stay in the unspecified iteration order; "all tags" is the
distinct tag list sorted lexicographically, independent of the iteration
order. -/
theorem c8_tag_lists (tagOrder : List String) (counts : String → Nat) :
    (topTagsOf tagOrder counts).length = min 10 tagOrder.length
      ∧ (topTagsOf tagOrder counts).Pairwise (fun a b => counts b ≤ counts a)
      ∧ (∀ t ∈ topTagsOf tagOrder counts, t ∈ tagOrder)
      ∧ (allTagsOf tagOrder).Perm tagOrder
      ∧ (allTagsOf tagOrder).Pairwise (fun a b : String => a ≤ b)
      ∧ (∀ tagOrder2, tagOrder.Perm tagOrder2 → allTagsOf tagOrder = allTagsOf tagOrder2) := by
  have hkeyTC : ∀ a b : TagCount, (decide (b.count < a.count) : Bool) = true
      ↔ b.count < a.count := by
    intro a b; simp
  have hpermTC := sortSliceGo_perm (fun a b : TagCount => decide (b.count < a.count))
    (tagOrder.map (fun t => TagCount.mk t (counts t)))
  have hmemTC : ∀ tc ∈ sortSliceGo (fun a b : TagCount => decide (b.count < a.count))
      (tagOrder.map (fun t => TagCount.mk t (counts t))), tc.count = counts tc.tag := by
    intro tc htc
    have := hpermTC.subset htc
    rcases List.mem_map.mp this with ⟨u, _, rfl⟩
    rfl
  have hmemTag : ∀ tc ∈ sortSliceGo (fun a b : TagCount => decide (b.count < a.count))
      (tagOrder.map (fun t => TagCount.mk t (counts t))), tc.tag ∈ tagOrder := by
    intro tc htc
    have := hpermTC.subset htc
    rcases List.mem_map.mp this with ⟨u, hu, rfl⟩
    exact hu
  have hsortTC := sortSliceGo_sortedB (fun a b : TagCount => decide (b.count < a.count))
    (fun a b c h1 h2 => by simp only [decide_eq_true_eq] at h1 h2 ⊢; omega)
    (fun a b h1 => by
      simp only [decide_eq_true_eq] at h1
      simp only [decide_eq_false_iff_not]
      omega)
    (tagOrder.map (fun t => TagCount.mk t (counts t)))
  have hpermS := sortSliceGo_perm (fun a b : String => decide (a < b)) tagOrder
  have hsortS := sortSliceGo_sortedB (fun a b : String => decide (a < b))
    (fun a b c h1 h2 => by
      simp only [decide_eq_true_eq] at h1 h2 ⊢
      exact lt_trans h1 h2)
    (fun a b h1 => by
      simp only [decide_eq_true_eq] at h1
      simp only [decide_eq_false_iff_not]
      exact lt_asymm h1)
    tagOrder
  have hsortedS : (allTagsOf tagOrder).Pairwise (fun a b : String => a ≤ b) := by
    refine hsortS.imp ?_
    intro a b h
    rw [decide_eq_false_iff_not] at h
    exact le_of_not_lt h
  refine ⟨?_, ?_, ?_, hpermS, hsortedS, ?_⟩
  · simp only [topTagsOf, List.length_map, List.length_take, hpermTC.length_eq]
  · unfold topTagsOf
    rw [List.pairwise_map]
    have hp1 : (List.take 10 (sortSliceGo (fun a b : TagCount => decide (b.count < a.count))
        (tagOrder.map (fun t => TagCount.mk t (counts t))))).Pairwise
          (fun a b : TagCount => b.count ≤ a.count) := by
      refine List.Pairwise.sublist (List.take_sublist 10 _) ?_
      refine hsortTC.imp ?_
      intro a b h
      rw [decide_eq_false_iff_not] at h
      omega
    refine hp1.imp_of_mem ?_
    intro a b ha hb h
    have ha2 := hmemTC a ((List.take_subset 10 _) ha)
    have hb2 := hmemTC b ((List.take_subset 10 _) hb)
    rw [← ha2, ← hb2]
    exact h
  · intro t ht
    unfold topTagsOf at ht
    rcases List.mem_map.mp ht with ⟨tc, htc, rfl⟩
    exact hmemTag tc ((List.take_subset 10 _) htc)
  · intro tagOrder2 hp
    have hperm2 := sortSliceGo_perm (fun a b : String => decide (a < b)) tagOrder2
    have hsorted2 : (allTagsOf tagOrder2).Pairwise (fun a b : String => a ≤ b) := by
      refine (sortSliceGo_sortedB (fun a b : String => decide (a < b))
        (fun a b c h1 h2 => by
          simp only [decide_eq_true_eq] at h1 h2 ⊢
          exact lt_trans h1 h2)
        (fun a b h1 => by
          simp only [decide_eq_true_eq] at h1
          simp only [decide_eq_false_iff_not]
          exact lt_asymm h1)
        tagOrder2).imp ?_
      intro a b h
      rw [decide_eq_false_iff_not] at h
      exact le_of_not_lt h
    refine List.eq_of_perm_of_sorted ?_ hsortedS hsorted2
    exact hpermS.trans (hp.trans hperm2.symm)

/-- Witness for C8 (amended): the two iteration orders of a two-tag
table produce the same lexicographic "all tags" list. -/
theorem c8_tag_lists_witness :
    (["b", "a"] : List String).Perm ["a", "b"]
      ∧ allTagsOf ["b", "a"] = allTagsOf ["a", "b"] :=
  ⟨List.Perm.swap "a" "b" [],
    (c8_tag_lists ["b", "a"] (fun _ => 1)).2.2.2.2.2 ["a", "b"] (List.Perm.swap "a" "b" [])⟩

/-- C10: loading a nonexistent configuration file yields the built-in
defaults (excluded tags private and draft, recent count 20, local graph
depth 2) without error; any other read failure, and a YAML parse failure,
yield an error. -/
theorem c10_config_load (home : Option String) (join : String → String → String)
    (yamlParse : String → Config → Option Config) (data : String) :
    load home join yamlParse ReadResult.notExist = some defaultConfig
      ∧ defaultConfig.exclude.tags = ["private", "draft"]
      ∧ defaultConfig.display.recentCount = 20
      ∧ defaultConfig.display.localGraphDepth = 2
      ∧ load home join yamlParse ReadResult.readError = none
      ∧ (yamlParse data defaultConfig = none
          → load home join yamlParse (ReadResult.ok data) = none)
      ∧ (∀ c, yamlParse data defaultConfig = some c
          → (load home join yamlParse (ReadResult.ok data)).isSome = true) := by
  refine ⟨rfl, rfl, rfl, rfl, rfl, ?_, ?_⟩
  · intro h; simp [load, h]
  · intro c h; simp [load, h]

/-- Witness for C10: a parser that always fails makes loading an existing
file an error. -/
theorem c10_config_load_witness :
    load none (fun _ p => p) (fun _ _ => none) (ReadResult.ok "") = none :=
  (c10_config_load none (fun _ p => p) (fun _ _ => none) "").2.2.2.2.2.1 rfl

/-! ## The adjacency view and the specification's hop-distance relation -/

theorem foldl_append_form {α β : Type} (g : β → List α) (l : List β) :
    ∀ acc : List α, l.foldl (fun acc b => acc ++ g b) acc = acc ++ l.flatMap g := by
  induction l with
  | nil => intro acc; simp
  | cons b bs ih =>
    intro acc
    simp only [List.foldl_cons, List.flatMap_cons, ih, List.append_assoc]

theorem adjacency_eq (links : List Link) (x : String) :
    adjacency links x
      = links.flatMap (fun l =>
          (if l.source == x then [l.target] else [])
            ++ (if l.target == x then [l.source] else [])) := by
  unfold adjacency
  have hstep : ∀ (acc : List String) (l : Link),
      (let acc2 := if l.source == x then acc ++ [l.target] else acc
       if l.target == x then acc2 ++ [l.source] else acc2)
        = acc ++ ((if l.source == x then [l.target] else [])
            ++ (if l.target == x then [l.source] else [])) := by
    intro acc l
    by_cases h1 : l.source == x <;> by_cases h2 : l.target == x <;> simp [h1, h2]
  refine (foldl_fun_congr _
    (fun acc l => acc ++ ((if l.source == x then [l.target] else [])
        ++ (if l.target == x then [l.source] else []))) hstep links []).trans ?_
  simpa using foldl_append_form
    (fun l : Link => (if l.source == x then [l.target] else [])
        ++ (if l.target == x then [l.source] else [])) links []

theorem stepB_iff (links : List Link) (x z : String) :
    stepB links x z = true
      ↔ ∃ l ∈ links, (l.source = x ∧ l.target = z) ∨ (l.target = x ∧ l.source = z) := by
  simp [stepB, List.any_eq_true]

theorem adjacency_mem (links : List Link) (x z : String) :
    z ∈ adjacency links x ↔ stepB links x z = true := by
  have hmem : ∀ (p : Prop) (inst : Decidable p) (w : String),
      (z ∈ @ite (List String) p inst [w] []) ↔ (p ∧ z = w) := by
    intro p inst w
    by_cases h : p <;> simp [h]
  rw [adjacency_eq, stepB_iff]
  simp only [List.mem_flatMap, List.mem_append, hmem, beq_iff_eq]
  constructor
  · rintro ⟨l, hl, ⟨h1, h2⟩ | ⟨h1, h2⟩⟩
    · exact ⟨l, hl, Or.inl ⟨h1, h2.symm⟩⟩
    · exact ⟨l, hl, Or.inr ⟨h1, h2.symm⟩⟩
  · rintro ⟨l, hl, ⟨h1, h2⟩ | ⟨h1, h2⟩⟩
    · exact ⟨l, hl, Or.inl ⟨h1, h2.symm⟩⟩
    · exact ⟨l, hl, Or.inr ⟨h1, h2.symm⟩⟩

theorem mem_allEndpoints (links : List Link) (x : String) :
    x ∈ allEndpoints links ↔ ∃ l ∈ links, x = l.source ∨ x = l.target := by
  induction links with
  | nil => simp [allEndpoints]
  | cons l ls ih =>
    simp only [allEndpoints, List.foldr_cons, List.mem_cons] at ih ⊢
    rw [ih]
    constructor
    · rintro (h | h | ⟨m, hm, h⟩)
      · exact ⟨l, Or.inl rfl, Or.inl h⟩
      · exact ⟨l, Or.inl rfl, Or.inr h⟩
      · exact ⟨m, Or.inr hm, h⟩
    · rintro ⟨m, rfl | hm, h⟩
      · rcases h with h | h
        · exact Or.inl h
        · exact Or.inr (Or.inl h)
      · exact Or.inr (Or.inr ⟨m, hm, h⟩)

theorem allEndpoints_length (links : List Link) :
    (allEndpoints links).length = 2 * links.length := by
  induction links with
  | nil => rfl
  | cons l ls ih =>
    simp only [allEndpoints, List.foldr_cons, List.length_cons] at ih ⊢
    omega

theorem adjacency_subset_endpoints (links : List Link) (x z : String)
    (h : z ∈ adjacency links x) : z ∈ allEndpoints links := by
  rw [adjacency_mem, stepB_iff] at h
  obtain ⟨l, hl, hc⟩ := h
  rw [mem_allEndpoints]
  rcases hc with ⟨_, h2⟩ | ⟨_, h2⟩
  · exact ⟨l, hl, Or.inr h2.symm⟩
  · exact ⟨l, hl, Or.inl h2.symm⟩

theorem reachInB_zero_iff (links : List Link) (x y : String) :
    reachInB links 0 x y = true ↔ x = y := by
  simp [reachInB]

theorem reachInB_refl (links : List Link) (n : Nat) (x : String) :
    reachInB links n x x = true := by
  cases n <;> simp [reachInB]

theorem reachInB_succ_iff (links : List Link) (n : Nat) (x y : String) :
    reachInB links (n + 1) x y = true
      ↔ x = y ∨ ∃ z, stepB links x z = true ∧ reachInB links n z y = true := by
  simp only [reachInB, Bool.or_eq_true, beq_iff_eq, List.any_eq_true, Bool.and_eq_true]
  constructor
  · rintro (h | ⟨l, hl, ⟨h1, h2⟩ | ⟨h1, h2⟩⟩)
    · exact Or.inl h
    · exact Or.inr ⟨l.target, (stepB_iff links x l.target).mpr ⟨l, hl, Or.inl ⟨h1, rfl⟩⟩, h2⟩
    · exact Or.inr ⟨l.source, (stepB_iff links x l.source).mpr ⟨l, hl, Or.inr ⟨h1, rfl⟩⟩, h2⟩
  · rintro (h | ⟨z, hstep, hr⟩)
    · exact Or.inl h
    · rcases (stepB_iff links x z).mp hstep with ⟨l, hl, ⟨h1, h2⟩ | ⟨h1, h2⟩⟩
      · exact Or.inr ⟨l, hl, Or.inl ⟨h1, by rw [h2]; exact hr⟩⟩
      · exact Or.inr ⟨l, hl, Or.inr ⟨h1, by rw [h2]; exact hr⟩⟩

theorem reachInB_succ_of (links : List Link) (n : Nat) (x y : String)
    (h : reachInB links n x y = true) : reachInB links (n + 1) x y = true := by
  induction n generalizing x with
  | zero =>
    rw [reachInB_zero_iff] at h
    rw [reachInB_succ_iff]
    exact Or.inl h
  | succ n ih =>
    rw [reachInB_succ_iff] at h
    rw [reachInB_succ_iff]
    rcases h with h | ⟨z, hs, hr⟩
    · exact Or.inl h
    · exact Or.inr ⟨z, hs, ih z hr⟩

theorem reachInB_mono (links : List Link) {n m : Nat} (h : n ≤ m) (x y : String)
    (hr : reachInB links n x y = true) : reachInB links m x y = true := by
  induction m with
  | zero => exact (Nat.le_zero.mp h) ▸ hr
  | succ m ih =>
    by_cases h2 : n ≤ m
    · exact reachInB_succ_of links m x y (ih h2)
    · have h3 : n = m + 1 := by omega
      exact h3 ▸ hr

theorem reachInB_snoc (links : List Link) (n : Nat) (x y : String) :
    reachInB links (n + 1) x y = true
      ↔ reachInB links n x y = true
        ∨ ∃ z, reachInB links n x z = true ∧ stepB links z y = true := by
  induction n generalizing x with
  | zero =>
    rw [reachInB_succ_iff, reachInB_zero_iff]
    constructor
    · rintro (h | ⟨z, hs, hr⟩)
      · exact Or.inl h
      · rw [reachInB_zero_iff] at hr
        exact Or.inr ⟨x, (reachInB_zero_iff links x x).mpr rfl, by rw [← hr]; exact hs⟩
    · rintro (h | ⟨z, hr, hs⟩)
      · exact Or.inl h
      · rw [reachInB_zero_iff] at hr
        exact Or.inr ⟨y, by rw [hr]; exact hs, (reachInB_zero_iff links y y).mpr rfl⟩
  | succ n ih =>
    constructor
    · intro h
      rcases (reachInB_succ_iff links (n + 1) x y).mp h with h2 | ⟨z, hs, hr⟩
      · exact Or.inl ((reachInB_succ_iff links n x y).mpr (Or.inl h2))
      · rcases (ih z).mp hr with h3 | ⟨w, hw, hsw⟩
        · exact Or.inl ((reachInB_succ_iff links n x y).mpr (Or.inr ⟨z, hs, h3⟩))
        · exact Or.inr ⟨w, (reachInB_succ_iff links n x w).mpr (Or.inr ⟨z, hs, hw⟩), hsw⟩
    · rintro (h | ⟨z, hr, hs⟩)
      · exact reachInB_succ_of links (n + 1) x y h
      · rcases (reachInB_succ_iff links n x z).mp hr with h2 | ⟨w, hsw, hrw⟩
        · refine (reachInB_succ_iff links (n + 1) x y).mpr (Or.inr ⟨y, ?_, ?_⟩)
          · rw [h2]; exact hs
          · exact reachInB_refl links (n + 1) y
        · refine (reachInB_succ_iff links (n + 1) x y).mpr (Or.inr ⟨w, hsw, ?_⟩)
          exact (ih w).mpr (Or.inr ⟨z, hrw, hs⟩)

/-! ## Bridging the plain BFS and its instrumented version -/

theorem bfsExpand_bridge (d1 : Nat) (nbrs : List String) :
    ∀ (q : List QEntry) (vD : List (String × Nat)),
      bfsExpand (q, vD.map Prod.fst) d1 nbrs
        = ((bfsExpandD (q, vD) d1 nbrs).1, (bfsExpandD (q, vD) d1 nbrs).2.map Prod.fst) := by
  induction nbrs with
  | nil => intro q vD; rfl
  | cons nb ns ih =>
    intro q vD
    simp only [bfsExpand, bfsExpandD, List.foldl_cons]
    by_cases h : (vD.map Prod.fst).contains nb
    · rw [if_pos h, if_pos h]
      exact ih q vD
    · rw [if_neg h, if_neg h]
      have h2 := ih (q ++ [{ id := nb, depth := d1 }]) (vD ++ [(nb, d1)])
      simpa [bfsExpand, bfsExpandD] using h2

theorem bfsAux_bridge (links : List Link) (D : Nat) :
    ∀ (fuel : Nat) (q : List QEntry) (vD : List (String × Nat)),
      bfsAux links D fuel q (vD.map Prod.fst) = ((bfsAuxD links D fuel q vD).2).map Prod.fst := by
  intro fuel
  induction fuel with
  | zero => intro q vD; rfl
  | succ n ih =>
    intro q vD
    cases q with
    | nil => rfl
    | cons curr rest =>
      simp only [bfsAux, bfsAuxD]
      by_cases h : D ≤ curr.depth
      · rw [if_pos h, if_pos h]
        exact ih rest vD
      · rw [if_neg h, if_neg h]
        have hb := bfsExpand_bridge (curr.depth + 1) (adjacency links curr.id) rest vD
        rw [hb]
        exact ih _ _

/-- What the neighbor-expansion fold produces: the queue and the visited
list are extended by the same batch of new entries — the not-yet-visited
neighbors, each at depth `d1`, without duplicates, and jointly with the
old visited set covering every neighbor. -/
theorem bfsExpandD_spec (d1 : Nat) :
    ∀ (nbrs : List String) (q : List QEntry) (vD : List (String × Nat)),
      ∃ new : List (String × Nat),
        bfsExpandD (q, vD) d1 nbrs
            = (q ++ new.map (fun p => QEntry.mk p.1 p.2), vD ++ new)
          ∧ (∀ p ∈ new, p.2 = d1 ∧ p.1 ∈ nbrs ∧ p.1 ∉ vD.map Prod.fst)
          ∧ (new.map Prod.fst).Nodup
          ∧ (∀ x ∈ nbrs, x ∈ vD.map Prod.fst ∨ x ∈ new.map Prod.fst) := by
  intro nbrs
  induction nbrs with
  | nil =>
    intro q vD
    exact ⟨[], by simp [bfsExpandD], by simp, by simp, by simp⟩
  | cons nb ns ih =>
    intro q vD
    by_cases h : (vD.map Prod.fst).contains nb
    · obtain ⟨new, heq, hprop, hnodup, hcover⟩ := ih q vD
      refine ⟨new, ?_, ?_, hnodup, ?_⟩
      · show (List.foldl _ (q, vD) (nb :: ns)) = _
        rw [List.foldl_cons, if_pos h]
        exact heq
      · intro p hp
        obtain ⟨hd, hmem, hnot⟩ := hprop p hp
        exact ⟨hd, List.mem_cons_of_mem nb hmem, hnot⟩
      · intro x hx
        rcases List.mem_cons.mp hx with rfl | hx
        · exact Or.inl (by simpa using List.elem_iff.mp h)
        · exact hcover x hx
    · obtain ⟨new, heq, hprop, hnodup, hcover⟩ :=
        ih (q ++ [{ id := nb, depth := d1 }]) (vD ++ [(nb, d1)])
      have hnb : nb ∉ vD.map Prod.fst := by
        intro hmem
        exact h (List.elem_iff.mpr hmem)
      refine ⟨(nb, d1) :: new, ?_, ?_, ?_, ?_⟩
      · show (List.foldl _ (q, vD) (nb :: ns)) = _
        rw [List.foldl_cons, if_neg h]
        show bfsExpandD (q ++ [{ id := nb, depth := d1 }], vD ++ [(nb, d1)]) d1 ns = _
        rw [heq]
        simp
      · intro p hp
        rcases List.mem_cons.mp hp with rfl | hp
        · exact ⟨rfl, List.mem_cons_self nb ns, hnb⟩
        · obtain ⟨hd, hmem, hnot⟩ := hprop p hp
          refine ⟨hd, List.mem_cons_of_mem nb hmem, fun hmem2 => hnot ?_⟩
          simp only [List.map_append, List.mem_append]
          exact Or.inl hmem2
      · simp only [List.map_cons, List.nodup_cons]
        refine ⟨?_, hnodup⟩
        intro hmem
        rcases List.mem_map.mp hmem with ⟨p, hp, hfst⟩
        obtain ⟨_, _, hnot⟩ := hprop p hp
        apply hnot
        simp [hfst]
      · intro x hx
        rcases List.mem_cons.mp hx with rfl | hx
        · exact Or.inr (by simp)
        · rcases hcover x hx with hv | hn
          · simp only [List.map_append, List.mem_append] at hv
            rcases hv with hv | hv
            · exact Or.inl hv
            · simp only [List.map_cons, List.map_nil, List.mem_singleton] at hv
              exact Or.inr (by simp [hv])
          · exact Or.inr (List.mem_cons_of_mem nb hn)

theorem bfsInv_init (links : List Link) (D : Nat) (focal : String) :
    BfsInv links D focal [{ id := focal, depth := 0 }] [(focal, 0)] := by
  refine ⟨?_, ?_, ?_, ?_, ?_, ?_, ?_, ?_⟩
  · intro e he
    simp only [List.mem_singleton] at he
    subst he
    simp
  · intro p hp
    simp only [List.mem_singleton] at hp
    subst hp
    simp
  · simp
  · simp
  · intro a ha b hb
    simp only [List.mem_singleton] at ha hb
    subst ha; subst hb
    simp
  · intro p hp e he
    simp only [List.mem_singleton] at hp he
    subst hp; subst he
    simp
  · intro p hp
    simp only [List.mem_singleton] at hp
    subst hp
    exact reachInB_refl links 0 focal
  · intro p hp
    simp only [List.mem_singleton] at hp
    subst hp
    right; left
    simp

theorem step_inv_discard (links : List Link) (D : Nat) (focal : String)
    (curr : QEntry) (rest : List QEntry) (v : List (String × Nat))
    (hinv : BfsInv links D focal (curr :: rest) v) (hD : D ≤ curr.depth) :
    BfsInv links D focal rest v := by
  obtain ⟨hqmem, hvdepth, hvnodup, hqsorted, hqclose, hvqle, hsound, hclosure⟩ := hinv
  refine ⟨?_, hvdepth, hvnodup, (List.pairwise_cons.mp hqsorted).2, ?_, ?_, hsound, ?_⟩
  · intro e he
    exact hqmem e (List.mem_cons_of_mem curr he)
  · intro a ha b hb
    exact hqclose a (List.mem_cons_of_mem curr ha) b (List.mem_cons_of_mem curr hb)
  · intro p hp e he
    exact hvqle p hp e (List.mem_cons_of_mem curr he)
  · intro p hp
    rcases hclosure p hp with h1 | h2 | h3
    · exact Or.inl h1
    · rcases List.mem_cons.mp h2 with hc | hr
      · have hdp : p.2 = curr.depth := congrArg QEntry.depth hc
        exact Or.inl (by omega)
      · exact Or.inr (Or.inl hr)
    · exact Or.inr (Or.inr h3)

theorem step_inv_expand (links : List Link) (D : Nat) (focal : String)
    (curr : QEntry) (rest : List QEntry) (v : List (String × Nat))
    (hinv : BfsInv links D focal (curr :: rest) v) (hD : curr.depth < D) :
    BfsInv links D focal
      (bfsExpandD (rest, v) (curr.depth + 1) (adjacency links curr.id)).1
      (bfsExpandD (rest, v) (curr.depth + 1) (adjacency links curr.id)).2 := by
  obtain ⟨new, heq, hprop, hnodup, hcover⟩ :=
    bfsExpandD_spec (curr.depth + 1) (adjacency links curr.id) rest v
  have h1 : (bfsExpandD (rest, v) (curr.depth + 1) (adjacency links curr.id)).1
      = rest ++ new.map (fun p => QEntry.mk p.1 p.2) := by rw [heq]
  have h2 : (bfsExpandD (rest, v) (curr.depth + 1) (adjacency links curr.id)).2
      = v ++ new := by rw [heq]
  rw [h1, h2]
  obtain ⟨hqmem, hvdepth, hvnodup, hqsorted, hqclose, hvqle, hsound, hclosure⟩ := hinv
  have hcurrv : (curr.id, curr.depth) ∈ v := hqmem curr (List.mem_cons_self curr rest)
  have hrest_ge : ∀ e ∈ rest, curr.depth ≤ e.depth := (List.pairwise_cons.mp hqsorted).1
  have hrest_pair := (List.pairwise_cons.mp hqsorted).2
  have hnewdepth : ∀ e ∈ new.map (fun p => QEntry.mk p.1 p.2), e.depth = curr.depth + 1 := by
    intro e he
    rcases List.mem_map.mp he with ⟨p, hp, rfl⟩
    exact (hprop p hp).1
  refine ⟨?_, ?_, ?_, ?_, ?_, ?_, ?_, ?_⟩
  · intro e he
    rcases List.mem_append.mp he with he | he
    · exact List.mem_append.mpr (Or.inl (hqmem e (List.mem_cons_of_mem curr he)))
    · rcases List.mem_map.mp he with ⟨p, hp, rfl⟩
      exact List.mem_append.mpr (Or.inr (by simpa using hp))
  · intro p hp
    rcases List.mem_append.mp hp with hp | hp
    · exact hvdepth p hp
    · have := (hprop p hp).1
      omega
  · rw [List.map_append]
    refine List.Nodup.append hvnodup hnodup ?_
    intro a ha1 ha2
    rcases List.mem_map.mp ha2 with ⟨p, hp, rfl⟩
    exact (hprop p hp).2.2 ha1
  · rw [List.pairwise_append]
    refine ⟨hrest_pair, ?_, ?_⟩
    · have : ∀ (m : List (String × Nat)), (∀ p ∈ m, p.2 = curr.depth + 1) →
          (m.map (fun p => QEntry.mk p.1 p.2)).Pairwise
            (fun a b : QEntry => a.depth ≤ b.depth) := by
        intro m
        induction m with
        | nil => intro _; simp
        | cons p ps ih =>
          intro hall
          simp only [List.map_cons, List.pairwise_cons]
          refine ⟨?_, ih (fun r hr => hall r (List.mem_cons_of_mem p hr))⟩
          intro e he
          rcases List.mem_map.mp he with ⟨r, hr, rfl⟩
          have hp1 := hall p (List.mem_cons_self p ps)
          have hp2 := hall r (List.mem_cons_of_mem p hr)
          simp only [hp1, hp2]
          omega
      exact this new (fun p hp => (hprop p hp).1)
    · intro a ha b hb
      have h3 := hqclose a (List.mem_cons_of_mem curr ha) curr (List.mem_cons_self curr rest)
      have h4 := hnewdepth b hb
      omega
  · intro a ha b hb
    rcases List.mem_append.mp ha with ha | ha <;> rcases List.mem_append.mp hb with hb | hb
    · exact hqclose a (List.mem_cons_of_mem curr ha) b (List.mem_cons_of_mem curr hb)
    · have h3 := hqclose a (List.mem_cons_of_mem curr ha) curr (List.mem_cons_self curr rest)
      have h4 := hnewdepth b hb
      omega
    · have h3 := hrest_ge b hb
      have h4 := hnewdepth a ha
      omega
    · have h3 := hnewdepth a ha
      have h4 := hnewdepth b hb
      omega
  · intro p hp e he
    rcases List.mem_append.mp hp with hp | hp <;> rcases List.mem_append.mp he with he | he
    · exact hvqle p hp e (List.mem_cons_of_mem curr he)
    · have h3 := hvqle p hp curr (List.mem_cons_self curr rest)
      have h4 := hnewdepth e he
      omega
    · have h3 := (hprop p hp).1
      have h4 := hrest_ge e he
      omega
    · have h3 := (hprop p hp).1
      have h4 := hnewdepth e he
      omega
  · intro p hp
    rcases List.mem_append.mp hp with hp | hp
    · exact hsound p hp
    · obtain ⟨hd, hadj, _⟩ := hprop p hp
      have hre : reachInB links curr.depth focal curr.id = true :=
        hsound (curr.id, curr.depth) hcurrv
      have hstep : stepB links curr.id p.1 = true := (adjacency_mem links curr.id p.1).mp hadj
      rw [hd]
      exact (reachInB_snoc links curr.depth focal p.1).mpr (Or.inr ⟨curr.id, hre, hstep⟩)
  · intro p hp
    rcases List.mem_append.mp hp with hp | hp
    · rcases hclosure p hp with hd1 | hq | hcl
      · exact Or.inl hd1
      · rcases List.mem_cons.mp hq with hqc | hqr
        · have hid : p.1 = curr.id := congrArg QEntry.id hqc
          have hdp : p.2 = curr.depth := congrArg QEntry.depth hqc
          refine Or.inr (Or.inr ?_)
          intro w hw
          rw [hid] at hw
          rcases hcover w hw with hv | hn
          · rcases List.mem_map.mp hv with ⟨p2, hp2, rfl⟩
            have h3 := hvqle p2 hp2 curr (List.mem_cons_self curr rest)
            exact ⟨p2.2, by omega, List.mem_append.mpr (Or.inl (by simpa using hp2))⟩
          · rcases List.mem_map.mp hn with ⟨p2, hp2, rfl⟩
            have h3 := (hprop p2 hp2).1
            exact ⟨p2.2, by omega, List.mem_append.mpr (Or.inr (by simpa using hp2))⟩
        · exact Or.inr (Or.inl (List.mem_append.mpr (Or.inl hqr)))
      · refine Or.inr (Or.inr ?_)
        intro w hw
        obtain ⟨dw, hdw, hmem⟩ := hcl w hw
        exact ⟨dw, hdw, List.mem_append.mpr (Or.inl hmem)⟩
    · refine Or.inr (Or.inl ?_)
      exact List.mem_append.mpr (Or.inr (List.mem_map.mpr ⟨p, hp, rfl⟩))

theorem bfsAuxD_inv (links : List Link) (D : Nat) (focal : String) :
    ∀ (fuel : Nat) (q : List QEntry) (v : List (String × Nat)),
      BfsInv links D focal q v →
      BfsInv links D focal (bfsAuxD links D fuel q v).1 (bfsAuxD links D fuel q v).2 := by
  intro fuel
  induction fuel with
  | zero => intro q v hinv; exact hinv
  | succ n ih =>
    intro q v hinv
    cases q with
    | nil =>
      show BfsInv links D focal ([], v).1 ([], v).2
      obtain ⟨hqmem, hvdepth, hvnodup, _, _, _, hsound, hclosure⟩ := hinv
      refine ⟨by simp, hvdepth, hvnodup, by simp, by simp, by simp, hsound, ?_⟩
      intro p hp
      rcases hclosure p hp with h1 | h2 | h3
      · exact Or.inl h1
      · exact absurd h2 (List.not_mem_nil _)
      · exact Or.inr (Or.inr h3)
    | cons curr rest =>
      show BfsInv links D focal (bfsAuxD links D (n + 1) (curr :: rest) v).1 _
      simp only [bfsAuxD]
      by_cases h : D ≤ curr.depth
      · rw [if_pos h]
        exact ih rest v (step_inv_discard links D focal curr rest v hinv h)
      · rw [if_neg h]
        exact ih _ _ (step_inv_expand links D focal curr rest v hinv (by omega))

theorem bfsAuxD_mono (links : List Link) (D : Nat) :
    ∀ (fuel : Nat) (q : List QEntry) (v : List (String × Nat)) (p : String × Nat),
      p ∈ v → p ∈ (bfsAuxD links D fuel q v).2 := by
  intro fuel
  induction fuel with
  | zero => intro q v p hp; exact hp
  | succ n ih =>
    intro q v p hp
    cases q with
    | nil => exact hp
    | cons curr rest =>
      simp only [bfsAuxD]
      by_cases h : D ≤ curr.depth
      · rw [if_pos h]
        exact ih rest v p hp
      · rw [if_neg h]
        obtain ⟨new, heq, _, _, _⟩ :=
          bfsExpandD_spec (curr.depth + 1) (adjacency links curr.id) rest v
        refine ih _ _ p ?_
        have h2 : (bfsExpandD (rest, v) (curr.depth + 1) (adjacency links curr.id)).2
            = v ++ new := by rw [heq]
        rw [h2]
        exact List.mem_append.mpr (Or.inl hp)

theorem unvisited_append (links : List Link) (v new : List (String × Nat))
    (hsub : ∀ p ∈ new, p.1 ∈ allEndpoints links ∧ p.1 ∉ v.map Prod.fst)
    (hnodup : (new.map Prod.fst).Nodup) :
    unvisited links (v ++ new) + new.length = unvisited links v := by
  unfold unvisited
  have hset : ((v ++ new).map Prod.fst).toFinset
      = (v.map Prod.fst).toFinset ∪ (new.map Prod.fst).toFinset := by
    simp [List.map_append]
  rw [hset]
  have hsub2 : (new.map Prod.fst).toFinset
      ⊆ (allEndpoints links).toFinset \ (v.map Prod.fst).toFinset := by
    intro a ha
    rw [List.mem_toFinset] at ha
    rcases List.mem_map.mp ha with ⟨p, hp, rfl⟩
    rw [Finset.mem_sdiff, List.mem_toFinset, List.mem_toFinset]
    exact ⟨(hsub p hp).1, (hsub p hp).2⟩
  have hdiff : (allEndpoints links).toFinset
        \ ((v.map Prod.fst).toFinset ∪ (new.map Prod.fst).toFinset)
      = ((allEndpoints links).toFinset \ (v.map Prod.fst).toFinset)
        \ (new.map Prod.fst).toFinset := by
    rw [sdiff_sdiff]
    rfl
  have hle := Finset.card_le_card hsub2
  rw [hdiff, Finset.card_sdiff hsub2]
  rw [List.toFinset_card_of_nodup hnodup, List.length_map] at hle ⊢
  omega

theorem bfsAuxD_drains (links : List Link) (D : Nat) :
    ∀ (fuel : Nat) (q : List QEntry) (v : List (String × Nat)),
      q.length + 2 * unvisited links v ≤ fuel →
      (bfsAuxD links D fuel q v).1 = [] := by
  intro fuel
  induction fuel with
  | zero =>
    intro q v h
    have hq : q = [] := List.eq_nil_of_length_eq_zero (by omega)
    subst hq
    rfl
  | succ n ih =>
    intro q v h
    cases q with
    | nil => rfl
    | cons curr rest =>
      simp only [bfsAuxD]
      by_cases hd : D ≤ curr.depth
      · rw [if_pos hd]
        refine ih rest v ?_
        simp only [List.length_cons] at h
        omega
      · rw [if_neg hd]
        obtain ⟨new, heq, hprop, hnodup, hcover⟩ :=
          bfsExpandD_spec (curr.depth + 1) (adjacency links curr.id) rest v
        have h1 : (bfsExpandD (rest, v) (curr.depth + 1) (adjacency links curr.id)).1
            = rest ++ new.map (fun p => QEntry.mk p.1 p.2) := by rw [heq]
        have h2 : (bfsExpandD (rest, v) (curr.depth + 1) (adjacency links curr.id)).2
            = v ++ new := by rw [heq]
        rw [h1, h2]
        refine ih _ _ ?_
        have hsub : ∀ p ∈ new, p.1 ∈ allEndpoints links ∧ p.1 ∉ v.map Prod.fst := by
          intro p hp
          exact ⟨adjacency_subset_endpoints links curr.id p.1 (hprop p hp).2.1,
            (hprop p hp).2.2⟩
        have hcount := unvisited_append links v new hsub hnodup
        simp only [List.length_append, List.length_map, List.length_cons] at h ⊢
        omega

theorem initial_fuel_le (links : List Link) (focal : String) :
    1 + 2 * unvisited links [(focal, 0)] ≤ bfsFuel links := by
  unfold bfsFuel unvisited
  have h1 : ((allEndpoints links).toFinset \ ([(focal, 0)].map Prod.fst).toFinset).card
      ≤ (allEndpoints links).toFinset.card :=
    Finset.card_le_card Finset.sdiff_subset
  have h2 := List.toFinset_card_le (allEndpoints links)
  have h3 := allEndpoints_length links
  omega

/-- The visited set of the BFS of `LocalGraph` is exactly the set of
nodes at undirected hop-distance at most `D` from the focal node over the
complete link set. -/
theorem localVisited_mem_iff (focal : String) (D : Nat) (links : List Link) (y : String) :
    y ∈ localVisited focal D links ↔ reachInB links D focal y = true := by
  have hbridge : localVisited focal D links
      = ((bfsAuxD links D (bfsFuel links)
          [{ id := focal, depth := 0 }] [(focal, 0)]).2).map Prod.fst := by
    have hb := bfsAux_bridge links D (bfsFuel links)
      [{ id := focal, depth := 0 }] [(focal, 0)]
    simpa [localVisited] using hb
  have hinv := bfsAuxD_inv links D focal (bfsFuel links) _ _ (bfsInv_init links D focal)
  have hempty : (bfsAuxD links D (bfsFuel links)
      [{ id := focal, depth := 0 }] [(focal, 0)]).1 = [] := by
    refine bfsAuxD_drains links D (bfsFuel links) _ _ ?_
    simpa using initial_fuel_le links focal
  constructor
  · intro hy
    rw [hbridge] at hy
    rcases List.mem_map.mp hy with ⟨p, hp, rfl⟩
    exact reachInB_mono links (hinv.vdepth p hp) focal p.1 (hinv.sound p hp)
  · intro hr
    have hcomp : ∀ n, n ≤ D → ∀ z, reachInB links n focal z = true →
        ∃ d, d ≤ n ∧ (z, d) ∈ (bfsAuxD links D (bfsFuel links)
          [{ id := focal, depth := 0 }] [(focal, 0)]).2 := by
      intro n
      induction n with
      | zero =>
        intro _ z hz
        rw [reachInB_zero_iff] at hz
        subst hz
        exact ⟨0, Nat.le_refl 0,
          bfsAuxD_mono links D (bfsFuel links) _ _ _ (by simp)⟩
      | succ n ih =>
        intro hnD z hz
        rcases (reachInB_snoc links n focal z).mp hz with hz0 | ⟨w, hw, hstep⟩
        · obtain ⟨d, hd2, hm⟩ := ih (by omega) z hz0
          exact ⟨d, by omega, hm⟩
        · obtain ⟨dw, hdw, hmw⟩ := ih (by omega) w hw
          rcases hinv.closure (w, dw) hmw with hD2 | hq | hcl
          · have hD3 : D ≤ dw := hD2
            omega
          · rw [hempty] at hq
            exact absurd hq (List.not_mem_nil _)
          · obtain ⟨dz, hdz, hmz⟩ := hcl z ((adjacency_mem links w z).mpr hstep)
            have hdz2 : dz ≤ dw + 1 := hdz
            exact ⟨dz, by omega, hmz⟩
    obtain ⟨d, _, hm⟩ := hcomp D (Nat.le_refl D) y hr
    rw [hbridge]
    exact List.mem_map.mpr ⟨(y, d), hm, rfl⟩

/-! ## Claim theorems: the graph engine -/

/-- C2: the visited set of the ego-graph traversal is exactly the set of
nodes at undirected hop-distance at most `D` from the focal node over the
complete unfiltered link set (the focal node at distance 0, depth-`D`
nodes included but not expanded); with links A→B and B→C only, the ego
graph of B at depth 1 visits A, B and C, and that of A at depth 1 visits
A and B but not C. -/
theorem c2_ego_visited_set (focal : String) (D : Nat) (links : List Link) :
    (∀ y, y ∈ localVisited focal D links ↔ reachInB links D focal y = true)
      ∧ localVisited "B" 1 [⟨"A", "B"⟩, ⟨"B", "C"⟩] = ["B", "A", "C"]
      ∧ localVisited "A" 1 [⟨"A", "B"⟩, ⟨"B", "C"⟩] = ["A", "B"]
      ∧ "C" ∉ localVisited "A" 1 [⟨"A", "B"⟩, ⟨"B", "C"⟩] :=
  ⟨fun y => localVisited_mem_iff focal D links y, by decide, by decide, by decide⟩

theorem nodeSetOf_iff (nodes : List Node) (s : String) :
    nodeSetOf nodes s = true ↔ s ∈ nodes.map Node.id := by
  simp [nodeSetOf, List.any_eq_true, List.mem_map]

theorem buildGraph_ids (nodes : List Node) (links : List Link)
    (nodeTags : String → Option (List String)) :
    (buildGraph nodes links nodeTags).nodes.map GraphNode.id = nodes.map Node.id := by
  simp [buildGraph, List.map_map, Function.comp]

/-- Counterexample for C1: with only A published and a single link A→B,
the local graph of A at depth 1 emits the edge A→B although B is not
among its nodes — a local edge's endpoints are only checked for being
visited, not for being published. -/
theorem c1_dangling_edge_counterexample :
    ((localGraph "A" 1 [⟨"A", "a.org", "A"⟩] [⟨"A", "B"⟩]
        (fun _ => (none : Option (List String)))).links.all
      (fun gl =>
        ((localGraph "A" 1 [⟨"A", "a.org", "A"⟩] [⟨"A", "B"⟩]
            (fun _ => (none : Option (List String)))).nodes.map GraphNode.id).contains gl.source
          && ((localGraph "A" 1 [⟨"A", "a.org", "A"⟩] [⟨"A", "B"⟩]
            (fun _ => (none : Option (List String)))).nodes.map
              GraphNode.id).contains gl.target)) = false := by
  decide

/-- C1 (amended): in the global graph projection every edge's endpoints
belong to the graph's node set; in a local ego subgraph an edge is
included iff it stems from a link both of whose endpoints are visited
(within hop-distance `D` of the focal node), regardless of whether they
are published, so a local edge may reference an ID outside the subgraph's
node table. -/
theorem c1_graph_edge_endpoints (nodes : List Node) (links : List Link)
    (nodeTags : String → Option (List String)) (focal : String) (D : Nat) :
    (∀ gl ∈ (buildGraph nodes links nodeTags).links,
        gl.source ∈ (buildGraph nodes links nodeTags).nodes.map GraphNode.id
          ∧ gl.target ∈ (buildGraph nodes links nodeTags).nodes.map GraphNode.id)
      ∧ (∀ gl, gl ∈ (localGraph focal D nodes links nodeTags).links
          ↔ ∃ l ∈ links, gl.source = l.source ∧ gl.target = l.target
              ∧ reachInB links D focal l.source = true
              ∧ reachInB links D focal l.target = true) := by
  constructor
  · intro gl hgl
    simp only [buildGraph, List.mem_map, List.mem_filter] at hgl
    obtain ⟨l, ⟨hl, hcond⟩, rfl⟩ := hgl
    rw [Bool.and_eq_true] at hcond
    rw [buildGraph_ids]
    exact ⟨(nodeSetOf_iff nodes l.source).mp hcond.1,
      (nodeSetOf_iff nodes l.target).mp hcond.2⟩
  · intro gl
    simp only [localGraph, List.mem_map, List.mem_filter]
    constructor
    · rintro ⟨l, ⟨hl, hcond⟩, rfl⟩
      rw [Bool.and_eq_true] at hcond
      refine ⟨l, hl, rfl, rfl, ?_, ?_⟩
      · exact (localVisited_mem_iff focal D links l.source).mp (List.elem_iff.mp hcond.1)
      · exact (localVisited_mem_iff focal D links l.target).mp (List.elem_iff.mp hcond.2)
    · rintro ⟨l, hl, h1, h2, h3, h4⟩
      refine ⟨l, ⟨hl, ?_⟩, ?_⟩
      · rw [Bool.and_eq_true]
        exact ⟨List.elem_iff.mpr ((localVisited_mem_iff focal D links l.source).mpr h3),
          List.elem_iff.mpr ((localVisited_mem_iff focal D links l.target).mpr h4)⟩
      · cases gl with
        | mk s t =>
          simp only at h1 h2
          rw [h1, h2]

/-- Witness for C1 (amended): the self-loop edge of a published note has
both endpoints in the global graph's node set. -/
theorem c1_graph_edge_endpoints_witness :
    (⟨"A", "A"⟩ : GraphLink) ∈ (buildGraph [⟨"A", "a.org", "A"⟩] [⟨"A", "A"⟩]
        (fun _ => (none : Option (List String)))).links
      ∧ ((⟨"A", "A"⟩ : GraphLink).source
            ∈ (buildGraph [⟨"A", "a.org", "A"⟩] [⟨"A", "A"⟩]
              (fun _ => (none : Option (List String)))).nodes.map GraphNode.id
          ∧ (⟨"A", "A"⟩ : GraphLink).target
            ∈ (buildGraph [⟨"A", "a.org", "A"⟩] [⟨"A", "A"⟩]
              (fun _ => (none : Option (List String)))).nodes.map GraphNode.id) :=
  ⟨by decide,
    (c1_graph_edge_endpoints [⟨"A", "a.org", "A"⟩] [⟨"A", "A"⟩]
      (fun _ => (none : Option (List String))) "A" 0).1 ⟨"A", "A"⟩ (by decide)⟩

theorem nodeMapOf_eq_some (nodes : List Node) (i : String) (n : Node)
    (h : nodeMapOf nodes i = some n) : n.id = i := by
  suffices key : ∀ (ms : List Node) (f : String → Option Node),
      (∀ m, f i = some m → m.id = i) →
      ((ms.foldl (fun f n => fun j => if j == n.id then some n else f j) f) i = some n
        → n.id = i) by
    exact key nodes (fun _ => none) (by simp) h
  intro ms
  induction ms with
  | nil => intro f hf hsome; exact hf n hsome
  | cons m rest ih =>
    intro f hf
    refine ih _ ?_
    intro m2 hm2
    by_cases hi : i = m.id
    · rw [hi] at hm2 ⊢
      simp only [beq_self_eq_true, if_true] at hm2
      cases hm2
      rfl
    · simp only [show (i == m.id) = false from by simpa using hi, Bool.false_eq_true,
        if_false] at hm2
      exact hf m2 hm2

theorem localVisited_zero (focal : String) (links : List Link) :
    localVisited focal 0 links = [focal] := by
  have h : ∀ (m : Nat) (v : List String), bfsAux links 0 m [] v = v := by
    intro m v; cases m <;> rfl
  show bfsAux links 0 (bfsFuel links) [{ id := focal, depth := 0 }] [focal] = [focal]
  unfold bfsFuel
  simp only [bfsAux]
  rw [if_pos (show (0 : Nat) ≤ ({ id := focal, depth := 0 } : QEntry).depth from Nat.le_refl 0)]
  exact h _ _

/-- Counterexample for C3: an unpublished focal node with a
self-referencing link yields, at depth 0, zero graph nodes and one edge,
not one node and zero edges. -/
theorem c3_depth_zero_counterexample :
    ¬((localGraph "X" 0 ([] : List Node) [⟨"X", "X"⟩]
          (fun _ => (none : Option (List String)))).nodes.length = 1
        ∧ (localGraph "X" 0 ([] : List Node) [⟨"X", "X"⟩]
          (fun _ => (none : Option (List String)))).links.length = 0) := by
  decide

/-- C3 (amended): at depth 0 the visited set is exactly the focal node;
the local graph's node list is exactly the focal node when it is
published and empty otherwise, and its edge list is exactly the
self-loop links of the focal node from the complete link set. -/
theorem c3_depth_zero (focal : String) (nodes : List Node) (links : List Link)
    (nodeTags : String → Option (List String)) :
    localVisited focal 0 links = [focal]
      ∧ (localGraph focal 0 nodes links nodeTags).nodes.map GraphNode.id
        = (if (nodeMapOf nodes focal).isSome then [focal] else [])
      ∧ (localGraph focal 0 nodes links nodeTags).links
        = (links.filter (fun l => l.source == focal && l.target == focal)).map
            (fun l => { source := l.source, target := l.target }) := by
  have hv := localVisited_zero focal links
  have hc : ∀ s : String, (([focal] : List String).contains s) = (s == focal) := by
    intro s
    show List.elem s [focal] = (s == focal)
    cases h : s == focal <;> simp [List.elem, h]
  refine ⟨hv, ?_, ?_⟩
  · simp only [localGraph, hv]
    cases h : nodeMapOf nodes focal with
    | none => simp [h]
    | some n =>
      simp only [h, Option.isSome_some, if_pos, List.filterMap_cons, List.filterMap_nil]
      simp only [List.map_cons, List.map_nil]
      rw [nodeMapOf_eq_some nodes focal n h]
  · simp only [localGraph, hv]
    congr 1
    apply List.filter_congr
    intro l _
    rw [hc, hc]

end OrgRoamWeb
